import Mathlib

/-
Verification of the tabular-data normalization and JSON-schema conversion
pipeline of src/app.py (PDF table extractor, pandas based).

Shallow embedding conventions:
  * Python strings are modeled as List Char (abbrev Str); str.strip() is
    modeled by dropping ASCII whitespace from both ends, matching the
    whitespace set of Char.isWhitespace.
  * Python str(n) for a natural number n is modeled by natDigits, a
    fuel-based structural base-10 renderer.
  * pandas DataFrames are modeled by Grid: a list of column labels plus a
    list of rows of string cells.  A pandas ValueError during DataFrame
    construction is modeled as Option.none.
  * Python dicts are modeled as association lists with in-place update
    (dictInsert), matching dict insertion-order semantics.
-/

/-- Python string, as a list of characters. -/
abbrev Str := List Char

/-- Whitespace test used by the model of str.strip(). -/
def isWs (c : Char) : Bool := c.isWhitespace

/-- Model of Python str.strip(): drop whitespace from both ends. -/
def strip (s : Str) : Str := ((s.dropWhile isWs).reverse.dropWhile isWs).reverse

/-- Decimal digit character for a value below ten (others collapse to '9',
a case that never arises because callers pass values below ten). -/
def digitChar : Nat → Char
  | 0 => '0'
  | 1 => '1'
  | 2 => '2'
  | 3 => '3'
  | 4 => '4'
  | 5 => '5'
  | 6 => '6'
  | 7 => '7'
  | 8 => '8'
  | _ => '9'

/-- Numeric value of a digit character (inverse of digitChar on 0..9). -/
def charVal (c : Char) : Nat := c.toNat - 48

/-- Fuel-based base-10 rendering; with fuel above the digit count it
produces the usual decimal digits, most significant first. -/
def natDigitsAux : Nat → Nat → List Char
  | 0, _ => []
  | fuel + 1, n =>
    if n < 10 then [digitChar n]
    else natDigitsAux fuel (n / 10) ++ [digitChar (n % 10)]

/-- Model of Python str(n) for a natural number n. -/
def natDigits (n : Nat) : List Char := natDigitsAux (n + 1) n

/-- Value read back from a digit string, most significant first. -/
def digitsVal (s : List Char) : Nat := s.foldl (fun a c => 10 * a + charVal c) 0

lemma charVal_digitChar {d : Nat} (hd : d < 10) : charVal (digitChar d) = d := by
  interval_cases d <;> decide

lemma digitsVal_append_singleton (s : List Char) (c : Char) :
    digitsVal (s ++ [c]) = 10 * digitsVal s + charVal c := by
  simp [digitsVal, List.foldl_append]

lemma digitsVal_natDigitsAux : ∀ (fuel n : Nat), n < 10 ^ fuel →
    digitsVal (natDigitsAux fuel n) = n := by
  intro fuel
  induction fuel with
  | zero =>
    intro n hn
    have hn0 : n = 0 := by omega
    simp [natDigitsAux, digitsVal, hn0]
  | succ fuel ih =>
    intro n hn
    by_cases h : n < 10
    · simp [natDigitsAux, h, digitsVal, charVal_digitChar h]
    · have hdiv : n / 10 < 10 ^ fuel := by
        have h10 : (0:Nat) < 10 := by norm_num
        rw [Nat.div_lt_iff_lt_mul h10]
        calc n < 10 ^ (fuel + 1) := hn
        _ = 10 ^ fuel * 10 := by ring
      have hmod : n % 10 < 10 := Nat.mod_lt _ (by norm_num)
      simp only [natDigitsAux, h, if_false]
      rw [digitsVal_append_singleton, ih _ hdiv, charVal_digitChar hmod]
      omega

lemma digitsVal_natDigits (n : Nat) : digitsVal (natDigits n) = n := by
  have hn : n < 10 ^ (n + 1) := by
    have h1 : n < 10 ^ n := Nat.lt_pow_self (by norm_num) n
    have h2 : 10 ^ n ≤ 10 ^ (n + 1) := Nat.pow_le_pow_right (by norm_num) (by omega)
    omega
  exact digitsVal_natDigitsAux (n + 1) n hn

lemma natDigits_injective : Function.Injective natDigits := by
  intro a b hab
  have ha := digitsVal_natDigits a
  have hb := digitsVal_natDigits b
  rw [hab] at ha
  omega

lemma natDigits_ne_nil (n : Nat) : natDigits n ≠ [] := by
  unfold natDigits natDigitsAux
  by_cases h : n < 10 <;> simp [h]

lemma mem_natDigitsAux_isDigit : ∀ (fuel n : Nat) (c : Char),
    c ∈ natDigitsAux fuel n → ∃ d, d < 10 ∧ c = digitChar d := by
  intro fuel
  induction fuel with
  | zero => intro n c hc; simp [natDigitsAux] at hc
  | succ fuel ih =>
    intro n c hc
    by_cases h : n < 10
    · simp [natDigitsAux, h] at hc
      exact ⟨n, h, hc⟩
    · simp only [natDigitsAux, h, if_false, List.mem_append, List.mem_singleton] at hc
      rcases hc with hc | hc
      · exact ih _ _ hc
      · exact ⟨n % 10, Nat.mod_lt _ (by norm_num), hc⟩

lemma mem_natDigits_not_ws {n : Nat} {c : Char} (hc : c ∈ natDigits n) :
    isWs c = false := by
  obtain ⟨d, hd, rfl⟩ := mem_natDigitsAux_isDigit _ _ _ hc
  interval_cases d <;> decide

/-- A string whose first and last characters (when present) are not
whitespace; such strings are fixed points of strip. -/
def goodEdges (s : Str) : Prop :=
  (∀ a, s.head? = some a → isWs a = false) ∧
  (∀ a, s.getLast? = some a → isWs a = false)

lemma dropWhile_eq_self_of_head (p : Char → Bool) (s : Str)
    (h : ∀ a, s.head? = some a → p a = false) : s.dropWhile p = s := by
  cases s with
  | nil => rfl
  | cons a t =>
    have ha : p a = false := h a rfl
    simp [List.dropWhile_cons, ha]

lemma head_false_of_dropWhile (p : Char → Bool) :
    ∀ (s : Str) (a : Char) (t : Str), s.dropWhile p = a :: t → p a = false := by
  intro s
  induction s with
  | nil => intro a t h; simp at h
  | cons b s ih =>
    intro a t h
    by_cases hb : p b
    · simp [List.dropWhile_cons, hb] at h
      exact ih a t h
    · simp [List.dropWhile_cons, hb] at h
      rcases h with ⟨rfl, _⟩
      simpa using hb

lemma getLast?_dropWhile_of_ne_nil (p : Char → Bool) :
    ∀ (s : Str), s.dropWhile p ≠ [] → (s.dropWhile p).getLast? = s.getLast? := by
  intro s
  induction s with
  | nil => intro h; simp at h
  | cons b s ih =>
    intro h
    by_cases hb : p b
    · simp only [List.dropWhile_cons, hb, if_true] at h ⊢
      rw [ih h]
      have hs : s ≠ [] := by
        intro hs
        apply h
        simp [hs]
      cases s with
      | nil => exact absurd rfl hs
      | cons c t => simp
    · simp [List.dropWhile_cons, hb]

lemma strip_eq_self_of_goodEdges {s : Str} (h : goodEdges s) : strip s = s := by
  obtain ⟨hh, hl⟩ := h
  unfold strip
  rw [dropWhile_eq_self_of_head isWs s hh]
  rw [dropWhile_eq_self_of_head isWs s.reverse]
  · exact s.reverse_reverse
  · intro a ha
    rw [List.head?_reverse] at ha
    exact hl a ha

lemma goodEdges_strip {s : Str} (h : strip s ≠ []) : goodEdges (strip s) := by
  unfold strip at h ⊢
  set u := s.dropWhile isWs with hu
  set w := u.reverse.dropWhile isWs with hw
  have hwne : w ≠ [] := by
    intro h0
    apply h
    simp [h0]
  constructor
  · intro a ha
    rw [List.head?_reverse] at ha
    have hgl : w.getLast? = u.reverse.getLast? := getLast?_dropWhile_of_ne_nil isWs u.reverse hwne
    rw [hgl, List.getLast?_reverse] at ha
    obtain ⟨b, t, hbt⟩ := List.exists_cons_of_ne_nil (by
      intro h0
      apply hwne
      rw [hw, h0]
      rfl : u ≠ [])
    have := head_false_of_dropWhile isWs s b t (by rw [← hu, hbt])
    rw [hbt] at ha
    simp at ha
    rwa [ha] at this
  · intro a ha
    rw [List.getLast?_reverse] at ha
    obtain ⟨b, t, hbt⟩ := List.exists_cons_of_ne_nil hwne
    have := head_false_of_dropWhile isWs u.reverse b t (by rw [← hw, hbt])
    rw [hbt] at ha
    simp at ha
    rwa [ha] at this

lemma goodEdges_append_underscore_digits {c : Str} (hc : goodEdges c) (k : Nat) :
    goodEdges (c ++ '_' :: natDigits k) := by
  constructor
  · intro a ha
    cases c with
    | nil =>
      simp at ha
      subst ha
      decide
    | cons b t =>
      simp at ha
      subst ha
      exact hc.1 b rfl
  · intro a ha
    rw [List.getLast?_append] at ha
    have h2 : ('_' :: natDigits k).getLast? = some a := by
      cases hgl : ('_' :: natDigits k).getLast? with
      | none => simp [List.getLast?_eq_none_iff] at hgl
      | some b =>
        rw [hgl, Option.or_some] at ha
        exact ha
    obtain ⟨x, xs, hxs⟩ := List.exists_cons_of_ne_nil (natDigits_ne_nil k)
    have h3 : ('_' :: natDigits k).getLast? = (natDigits k).getLast? := by
      rw [hxs]
      exact List.getLast?_cons_cons
    rw [h3] at h2
    exact mem_natDigits_not_ws (List.mem_of_getLast?_eq_some h2)

/-
Header normalization, src/app.py lines 128-142.  For header cell h at
position i the candidate name is str(h).strip() if h is not None else "",
replaced by "Extracted_Column_<i+1>" when empty; a candidate already in the
running set temp_col_names receives the suffix "_<count>" for the first
count = 1, 2, ... that is free.
-/

/-- Candidate column name for raw header value h at 0-based position i
(src/app.py lines 130-133). -/
def normCandidate (i : Nat) (h : Option Str) : Str :=
  let c := match h with
    | none => []
    | some s => strip s
  if c = [] then "Extracted_Column_".data ++ natDigits (i + 1) else c

/-- The suffixed candidate "original_<k>" tried by the collision loop
(src/app.py line 139). -/
def cand (c : Str) (k : Nat) : Str := c ++ '_' :: natDigits k

/-- Bounded scan of the while-loop of src/app.py lines 138-140: starting at
suffix k, return the first cand c k not in used.  The fuel is always chosen
large enough that the fallback at fuel zero is unreachable. -/
def findFresh (used : List Str) (c : Str) : Nat → Nat → Str
  | 0, k => cand c k
  | fuel + 1, k => if cand c k ∈ used then findFresh used c fuel (k + 1) else cand c k

/-- Unique name for candidate c against the used set (src/app.py lines
135-141): keep c if unused, otherwise append the smallest free suffix. -/
def freshName (used : List Str) (c : Str) : Str :=
  if c ∈ used then findFresh used c (used.length + 1) 1 else c

/-- Left fold of the per-column loop of src/app.py lines 130-142; the first
argument is the running set temp_col_names. -/
def uniquifyGo : List Str → List Str → List Str
  | _, [] => []
  | used, c :: cs =>
    let n := freshName used c
    n :: uniquifyGo (n :: used) cs

/-- Column names produced for a raw header row (src/app.py lines 128-142). -/
def headerNames (header : List (Option Str)) : List Str :=
  uniquifyGo [] (header.enum.map (fun p => normCandidate p.1 p.2))

lemma cand_injective (c : Str) : Function.Injective (cand c) := by
  intro a b hab
  unfold cand at hab
  have h1 : '_' :: natDigits a = '_' :: natDigits b := List.append_cancel_left hab
  have h2 : natDigits a = natDigits b := by injection h1
  exact natDigits_injective h2

lemma exists_fresh_suffix (used : List Str) (c : Str) :
    ∃ j, j < used.length + 1 ∧ cand c (1 + j) ∉ used := by
  by_contra hall
  push_neg at hall
  have hmem : ∀ j < used.length + 1, cand c (1 + j) ∈ used := hall
  set l := (List.range (used.length + 1)).map (fun j => cand c (1 + j)) with hl
  have hnodup : l.Nodup := by
    refine List.Nodup.map ?_ (List.nodup_range _)
    intro a b hab
    have := cand_injective c hab
    omega
  have hsub : ∀ x ∈ l, x ∈ used := by
    intro x hx
    rw [hl] at hx
    simp only [List.mem_map, List.mem_range] at hx
    obtain ⟨j, hj, rfl⟩ := hx
    exact hmem j hj
  have hcard : l.toFinset.card = l.length := List.toFinset_card_of_nodup hnodup
  have hlen : l.length = used.length + 1 := by simp [hl]
  have hsubset : l.toFinset ⊆ used.toFinset := by
    intro x hx
    rw [List.mem_toFinset] at hx ⊢
    exact hsub x hx
  have h1 : l.toFinset.card ≤ used.toFinset.card := Finset.card_le_card hsubset
  have h2 : used.toFinset.card ≤ used.length := List.toFinset_card_le used
  omega

lemma findFresh_spec (used : List Str) (c : Str) :
    ∀ (fuel k : Nat), (∃ j, j < fuel ∧ cand c (k + j) ∉ used) →
      ∃ m, findFresh used c fuel k = cand c m ∧ k ≤ m ∧ cand c m ∉ used ∧
        ∀ j, k ≤ j → j < m → cand c j ∈ used := by
  intro fuel
  induction fuel with
  | zero =>
    intro k hk
    obtain ⟨j, hj, _⟩ := hk
    omega
  | succ fuel ih =>
    intro k hk
    by_cases h : cand c k ∈ used
    · obtain ⟨j, hj, hfree⟩ := hk
      have hj0 : j ≠ 0 := by
        intro h0
        rw [h0] at hfree
        simp at hfree
        exact hfree h
      obtain ⟨m, hm1, hm2, hm3, hm4⟩ := ih (k + 1) ⟨j - 1, by omega, by
        have : k + 1 + (j - 1) = k + j := by omega
        rw [this]
        exact hfree⟩
      refine ⟨m, ?_, by omega, hm3, ?_⟩
      · simp only [findFresh, h, if_true]
        exact hm1
      · intro j2 hj2a hj2b
        by_cases hj2 : j2 = k
        · rw [hj2]; exact h
        · exact hm4 j2 (by omega) hj2b
    · exact ⟨k, by simp [findFresh, h], le_refl k, h, by omega⟩

lemma freshName_spec_mem (used : List Str) (c : Str) (hc : c ∈ used) :
    ∃ m, 1 ≤ m ∧ freshName used c = cand c m ∧ cand c m ∉ used ∧
      ∀ j, 1 ≤ j → j < m → cand c j ∈ used := by
  obtain ⟨j, hj, hfree⟩ := exists_fresh_suffix used c
  obtain ⟨m, hm1, hm2, hm3, hm4⟩ := findFresh_spec used c (used.length + 1) 1 ⟨j, hj, hfree⟩
  exact ⟨m, hm2, by simp [freshName, hc, hm1], hm3, hm4⟩

lemma freshName_not_mem (used : List Str) (c : Str) : freshName used c ∉ used := by
  by_cases hc : c ∈ used
  · obtain ⟨m, _, heq, hfree, _⟩ := freshName_spec_mem used c hc
    rw [heq]
    exact hfree
  · simp [freshName, hc]

lemma freshName_form (used : List Str) (c : Str) :
    freshName used c = c ∨ ∃ m, 1 ≤ m ∧ freshName used c = cand c m := by
  by_cases hc : c ∈ used
  · obtain ⟨m, hm, heq, _, _⟩ := freshName_spec_mem used c hc
    exact Or.inr ⟨m, hm, heq⟩
  · exact Or.inl (by simp [freshName, hc])

lemma freshName_goodEdges {used : List Str} {c : Str}
    (hc : goodEdges c) (hne : c ≠ []) :
    goodEdges (freshName used c) ∧ freshName used c ≠ [] := by
  rcases freshName_form used c with h | ⟨m, _, h⟩
  · rw [h]; exact ⟨hc, hne⟩
  · rw [h]
    refine ⟨goodEdges_append_underscore_digits hc m, ?_⟩
    unfold cand
    simp

lemma normCandidate_goodEdges (i : Nat) (h : Option Str) :
    goodEdges (normCandidate i h) ∧ normCandidate i h ≠ [] := by
  unfold normCandidate
  by_cases hc : (match h with | none => [] | some s => strip s) = []
  · simp only [hc, if_true]
    constructor
    · constructor
      · intro a ha
        simp at ha
        subst ha
        decide
      · intro a ha
        obtain ⟨x, xs, hxs⟩ := List.exists_cons_of_ne_nil (natDigits_ne_nil (i + 1))
        rw [List.getLast?_append] at ha
        have h2 : (natDigits (i + 1)).getLast? = some a := by
          cases hgl : (natDigits (i + 1)).getLast? with
          | none =>
            rw [List.getLast?_eq_none_iff] at hgl
            exact absurd hgl (natDigits_ne_nil (i + 1))
          | some b =>
            rw [hgl, Option.or_some] at ha
            exact ha
        exact mem_natDigits_not_ws (List.mem_of_getLast?_eq_some h2)
    · simp [natDigits_ne_nil]
  · simp only [hc, if_false]
    cases h with
    | none => simp at hc
    | some s =>
      simp only at hc ⊢
      exact ⟨goodEdges_strip hc, hc⟩

lemma uniquifyGo_length : ∀ (cs used : List Str), (uniquifyGo used cs).length = cs.length := by
  intro cs
  induction cs with
  | nil => intro used; rfl
  | cons c cs ih => intro used; simp [uniquifyGo, ih]

lemma uniquifyGo_nodup_aux : ∀ (cs used : List Str),
    (uniquifyGo used cs).Nodup ∧ ∀ n ∈ uniquifyGo used cs, n ∉ used := by
  intro cs
  induction cs with
  | nil => intro used; simp [uniquifyGo]
  | cons c cs ih =>
    intro used
    obtain ⟨ihn, ihm⟩ := ih (freshName used c :: used)
    constructor
    · rw [uniquifyGo, List.nodup_cons]
      refine ⟨?_, ihn⟩
      intro hmem
      exact (ihm _ hmem) (List.mem_cons_self _ _)
    · intro n hn
      rw [uniquifyGo, List.mem_cons] at hn
      rcases hn with rfl | hn
      · exact freshName_not_mem used c
      · intro hused
        exact (ihm n hn) (List.mem_cons_of_mem _ hused)

lemma uniquifyGo_good : ∀ (cs used : List Str),
    (∀ c ∈ cs, goodEdges c ∧ c ≠ []) →
    ∀ n ∈ uniquifyGo used cs, goodEdges n ∧ n ≠ [] := by
  intro cs
  induction cs with
  | nil => intro used _ n hn; simp [uniquifyGo] at hn
  | cons c cs ih =>
    intro used hcs n hn
    rw [uniquifyGo, List.mem_cons] at hn
    rcases hn with rfl | hn
    · obtain ⟨hg, hne⟩ := hcs c (List.mem_cons_self _ _)
      exact freshName_goodEdges hg hne
    · exact ih _ (fun x hx => hcs x (List.mem_cons_of_mem _ hx)) n hn

lemma uniquifyGo_getD : ∀ (cs used : List Str) (i : Nat), i < cs.length →
    ∃ u, (uniquifyGo used cs).getD i [] = freshName u (cs.getD i []) := by
  intro cs
  induction cs with
  | nil => intro used i hi; simp at hi
  | cons c cs ih =>
    intro used i hi
    cases i with
    | zero => exact ⟨used, rfl⟩
    | succ i =>
      simp only [uniquifyGo, List.getD_cons_succ]
      exact ih _ i (by simpa using hi)

lemma headerNames_length (header : List (Option Str)) :
    (headerNames header).length = header.length := by
  unfold headerNames
  rw [uniquifyGo_length]
  simp

lemma headerNames_nodup (header : List (Option Str)) : (headerNames header).Nodup :=
  (uniquifyGo_nodup_aux _ _).1

lemma headerNames_good (header : List (Option Str)) :
    ∀ n ∈ headerNames header, goodEdges n ∧ n ≠ [] := by
  unfold headerNames
  apply uniquifyGo_good
  intro c hc
  simp only [List.mem_map] at hc
  obtain ⟨p, _, rfl⟩ := hc
  exact normCandidate_goodEdges p.1 p.2

/-
Table splitter, src/app.py lines 220-236.  Boundary inputs are the values
split_idx + 1 appended to split_points_input; they are combined with 0 and
len(edited_df), deduplicated, sorted, filtered to the valid range, and the
consecutive pairs with start < end yield the slices.  If no slice results
while the table is nonempty, the whole table is used as a single part.
-/

/-- Model of sorted(list(set([0] + split_points_input + [len(edited_df)])))
from src/app.py line 220.  Python's sorted-set of integers is the strictly
increasing enumeration of the distinct values, which insertionSort of dedup
also produces. -/
def boundarySorted (R : Nat) (input : List Int) : List Int :=
  (((0 : Int) :: (input ++ [(R : Int)])).dedup).insertionSort (fun a b => a ≤ b)

/-- Model of the comprehension of src/app.py line 222: keep sp with
0 <= sp <= len(edited_df) and (i == 0 or sp > split_points[i-1]). -/
def splitPoints (R : Nat) (input : List Int) : List Int :=
  ((boundarySorted R input).enum.filter (fun p =>
      decide (0 ≤ p.2) && decide (p.2 ≤ (R : Int)) &&
      (p.1 == 0 || decide ((boundarySorted R input).getD (p.1 - 1) 0 < p.2)))).map Prod.snd

/-- Model of the slicing loop and fallback of src/app.py lines 225-236:
slice df.iloc[start:end] for consecutive boundary pairs with start < end;
if no slice results and the table is nonempty, fall back to the whole
table. -/
def splitTables {α : Type} (df : List α) (input : List Int) : List (List α) :=
  let pts := splitPoints df.length input
  let tabs := (pts.zip pts.tail).filterMap (fun p =>
    if p.1 < p.2 then some ((df.drop p.1.toNat).take (p.2.toNat - p.1.toNat)) else none)
  if tabs.isEmpty && !df.isEmpty then [df] else tabs

lemma boundarySorted_sorted (R : Nat) (input : List Int) :
    (boundarySorted R input).Pairwise (fun a b => a ≤ b) :=
  List.sorted_insertionSort _ _

lemma boundarySorted_nodup (R : Nat) (input : List Int) :
    (boundarySorted R input).Nodup :=
  ((List.perm_insertionSort _ _).nodup_iff).mpr (List.nodup_dedup _)

lemma boundarySorted_pairwise_lt (R : Nat) (input : List Int) :
    (boundarySorted R input).Pairwise (fun a b => a < b) := by
  have h1 := boundarySorted_sorted R input
  have h2 : (boundarySorted R input).Pairwise (fun a b => a ≠ b) :=
    List.Pairwise.imp (fun h => h) (boundarySorted_nodup R input)
  rw [List.pairwise_iff_getElem] at h1 h2 ⊢
  intro i j hi hj hij
  exact lt_of_le_of_ne (h1 i j hi hj hij) (h2 i j hi hj hij)

lemma mem_boundarySorted (R : Nat) (input : List Int) (x : Int) :
    x ∈ boundarySorted R input ↔ x = 0 ∨ x ∈ input ∨ x = (R : Int) := by
  unfold boundarySorted
  rw [(List.perm_insertionSort _ _).mem_iff, List.mem_dedup]
  simp

lemma splitPoints_eq_filter (R : Nat) (input : List Int) :
    splitPoints R input =
      (boundarySorted R input).filter (fun x => decide (0 ≤ x) && decide (x ≤ (R : Int))) := by
  unfold splitPoints
  set s := boundarySorted R input with hs
  have hcongr : s.enum.filter (fun p =>
      decide (0 ≤ p.2) && decide (p.2 ≤ (R : Int)) &&
      (p.1 == 0 || decide (s.getD (p.1 - 1) 0 < p.2))) =
      s.enum.filter (fun p => decide (0 ≤ p.2) && decide (p.2 ≤ (R : Int))) := by
    apply List.filter_congr
    intro p hp
    obtain ⟨i, x⟩ := p
    have hget : s[i]? = some x := List.mk_mem_enum_iff_getElem?.mp hp
    have hlen : i < s.length := by
      by_contra hge
      rw [List.getElem?_eq_none (by omega)] at hget
      exact Option.noConfusion hget
    have hx : s.getD i 0 = x := by
      rw [List.getD_eq_getElem s 0 hlen]
      have := List.getElem?_eq_getElem hlen
      rw [this] at hget
      exact Option.some.inj hget
    cases i with
    | zero => simp
    | succ i =>
      have hprev : s.getD i 0 < x := by
        have hi : i < s.length := by omega
        have := (List.pairwise_iff_getElem.mp (boundarySorted_pairwise_lt R input))
          i (i + 1) hi hlen (by omega)
        rw [List.getD_eq_getElem s 0 hi]
        rw [← hx, List.getD_eq_getElem s 0 hlen]
        exact this
      simp only [Nat.add_sub_cancel]
      rw [decide_eq_true hprev]
      simp
  rw [hcongr]
  have hpair : (fun (p : Nat × Int) => decide (0 ≤ p.2) && decide (p.2 ≤ (R : Int))) =
      ((fun x => decide (0 ≤ x) && decide (x ≤ (R : Int))) ∘ Prod.snd) := rfl
  rw [hpair, ← List.filter_map, List.enum_map_snd]

lemma splitPoints_pairwise_lt (R : Nat) (input : List Int) :
    (splitPoints R input).Pairwise (fun a b => a < b) := by
  rw [splitPoints_eq_filter]
  exact List.Pairwise.sublist (List.filter_sublist _) (boundarySorted_pairwise_lt R input)

lemma mem_splitPoints (R : Nat) (input : List Int) (x : Int) :
    x ∈ splitPoints R input ↔
      (x = 0 ∨ x ∈ input ∨ x = (R : Int)) ∧ 0 ≤ x ∧ x ≤ (R : Int) := by
  rw [splitPoints_eq_filter, List.mem_filter, mem_boundarySorted]
  simp

lemma splitPoints_head (R : Nat) (input : List Int) :
    (splitPoints R input).head? = some 0 := by
  have h0 : (0 : Int) ∈ splitPoints R input := by
    rw [mem_splitPoints]
    exact ⟨Or.inl rfl, le_refl 0, Int.natCast_nonneg R⟩
  cases hpts : splitPoints R input with
  | nil => rw [hpts] at h0; simp at h0
  | cons h t =>
    rw [hpts] at h0
    have hpw := splitPoints_pairwise_lt R input
    rw [hpts] at hpw
    rcases List.mem_cons.mp h0 with heq | hmem
    · rw [← heq]
      rfl
    · have hlt : h < 0 := List.rel_of_pairwise_cons hpw hmem
      have hge : (0 : Int) ≤ h := by
        have : h ∈ splitPoints R input := by rw [hpts]; exact List.mem_cons_self _ _
        exact ((mem_splitPoints R input h).mp this).2.1
      omega

lemma splitPoints_getLast (R : Nat) (input : List Int) :
    (splitPoints R input).getLast? = some (R : Int) := by
  have hR : (R : Int) ∈ splitPoints R input := by
    rw [mem_splitPoints]
    exact ⟨Or.inr (Or.inr rfl), Int.natCast_nonneg R, le_refl _⟩
  have hne : splitPoints R input ≠ [] := by
    intro h
    rw [h] at hR
    simp at hR
  rw [List.getLast?_eq_getLast _ hne]
  congr 1
  have hlen : 0 < (splitPoints R input).length := by
    cases hp : splitPoints R input with
    | nil => exact absurd hp hne
    | cons a t => simp [hp]
  have hlast_idx : (splitPoints R input).getLast hne =
      (splitPoints R input)[(splitPoints R input).length - 1] := by
    rw [List.getLast_eq_getElem]
  obtain ⟨i, hi, hieq⟩ := List.mem_iff_getElem.mp hR
  by_contra hne3
  have hile : i < (splitPoints R input).length - 1 := by
    by_contra hge
    have hival : i = (splitPoints R input).length - 1 := by omega
    apply hne3
    rw [hlast_idx, ← hieq]
    congr 1
    omega
  have hpair := (List.pairwise_iff_getElem.mp (splitPoints_pairwise_lt R input))
    i ((splitPoints R input).length - 1) hi (by omega) hile
  have hlast_le : (splitPoints R input).getLast hne ≤ (R : Int) :=
    ((mem_splitPoints R input _).mp (List.getLast_mem hne)).2.2
  rw [hlast_idx] at hlast_le
  rw [hieq] at hpair
  omega

/-- The slices the splitter loop appends for a boundary list bs over df
(src/app.py lines 225-230). -/
def sliceTabs {α : Type} (df : List α) (bs : List Int) : List (List α) :=
  (bs.zip bs.tail).filterMap (fun p =>
    if p.1 < p.2 then some ((df.drop p.1.toNat).take (p.2.toNat - p.1.toNat)) else none)

lemma splitTables_eq {α : Type} (df : List α) (input : List Int) :
    splitTables df input =
      if (sliceTabs df (splitPoints df.length input)).isEmpty && !df.isEmpty
      then [df] else sliceTabs df (splitPoints df.length input) := rfl

lemma sliceTabs_join {α : Type} : ∀ (bs : List Int) (df : List α) (a : Int),
    bs.Pairwise (fun x y => x < y) → bs.head? = some a →
    bs.getLast? = some (df.length : Int) → 0 ≤ a →
    (sliceTabs df bs).flatten = df.drop a.toNat := by
  intro bs
  induction bs with
  | nil => intro df a _ ha _ _; simp at ha
  | cons b bs ih =>
    intro df a hpw ha hlast h0
    have hab : a = b := by
      rw [List.head?_cons] at ha
      exact (Option.some.inj ha).symm
    subst hab
    cases bs with
    | nil =>
      rw [List.getLast?_eq_getLast _ (by simp)] at hlast
      simp only [List.getLast_singleton] at hlast
      have haR : a = (df.length : Int) := Option.some.inj hlast
      have : a.toNat = df.length := by omega
      simp [sliceTabs, this]
    | cons c bs' =>
      have hac : a < c := List.rel_of_pairwise_cons hpw (List.mem_cons_self _ _)
      have h0c : (0:Int) ≤ c := by omega
      have hrest := ih df c (List.Pairwise.of_cons hpw) (List.head?_cons)
        (by rw [← hlast]; exact List.getLast?_cons_cons.symm) h0c
      have hslice : sliceTabs df (a :: c :: bs') =
          ((df.drop a.toNat).take (c.toNat - a.toNat)) :: sliceTabs df (c :: bs') := by
        unfold sliceTabs
        simp only [List.tail_cons, List.zip_cons_cons, List.filterMap_cons]
        rw [if_pos hac]
      rw [hslice]
      rw [List.flatten_cons, hrest]
      have hdd : df.drop c.toNat = (df.drop a.toNat).drop (c.toNat - a.toNat) := by
        rw [List.drop_drop]
        congr 1
        omega
      rw [hdd, List.take_append_drop]

lemma splitTables_join {α : Type} (df : List α) (input : List Int) :
    (splitTables df input).flatten = df := by
  have hj : (sliceTabs df (splitPoints df.length input)).flatten = df := by
    have := sliceTabs_join (splitPoints df.length input) df 0
      (splitPoints_pairwise_lt df.length input)
      (splitPoints_head df.length input)
      (splitPoints_getLast df.length input)
      (le_refl 0)
    simpa using this
  rw [splitTables_eq]
  by_cases hcond : (sliceTabs df (splitPoints df.length input)).isEmpty && !df.isEmpty
  · rw [if_pos hcond]
    simp
  · rw [if_neg hcond]
    exact hj

lemma pairwise_head_last_singleton {a : Int} : ∀ {l : List Int},
    l.Pairwise (fun x y => x < y) → l.head? = some a → l.getLast? = some a → l = [a] := by
  intro l hpw hh hl
  cases l with
  | nil => simp at hh
  | cons b t =>
    rw [List.head?_cons] at hh
    have hab : b = a := Option.some.inj hh
    cases t with
    | nil => rw [hab]
    | cons c t' =>
      exfalso
      rw [List.getLast?_cons_cons] at hl
      have hmem : a ∈ c :: t' := List.mem_of_getLast?_eq_some hl
      have hba : b < a := List.rel_of_pairwise_cons hpw hmem
      omega

lemma splitPoints_zero (input : List Int) : splitPoints 0 input = [0] := by
  apply pairwise_head_last_singleton (splitPoints_pairwise_lt 0 input)
    (splitPoints_head 0 input)
  simpa using splitPoints_getLast 0 input

lemma pairwise_head_last_pair {a b : Int} : ∀ {l : List Int},
    l.Pairwise (fun x y => x < y) → l.head? = some a → l.getLast? = some b →
    a ≠ b → (∀ x ∈ l, x = a ∨ x = b) → l = [a, b] := by
  intro l hpw hh hl hab hmem
  cases l with
  | nil => simp at hh
  | cons c t =>
    rw [List.head?_cons] at hh
    have hca : c = a := Option.some.inj hh
    cases t with
    | nil =>
      exfalso
      rw [List.getLast?_eq_getLast _ (by simp)] at hl
      simp only [List.getLast_singleton] at hl
      have hcb : c = b := Option.some.inj hl
      omega
    | cons d t' =>
      have hd : d = a ∨ d = b := hmem d (by simp)
      have hcd : c < d := List.rel_of_pairwise_cons hpw (List.mem_cons_self _ _)
      have hdb : d = b := by
        rcases hd with h | h
        · omega
        · exact h
      cases t' with
      | nil => rw [hca, hdb]
      | cons e t'' =>
        exfalso
        have he : e = a ∨ e = b := hmem e (by simp)
        have hpw2 := List.Pairwise.of_cons hpw
        have hde : d < e := List.rel_of_pairwise_cons hpw2 (List.mem_cons_self _ _)
        have hce : c < e := List.rel_of_pairwise_cons hpw (by simp)
        omega

lemma splitPoints_all_invalid (R : Nat) (input : List Int) (hR : 0 < R)
    (hinv : ∀ p ∈ input, p ≤ 0 ∨ (R : Int) ≤ p) :
    splitPoints R input = [0, (R : Int)] := by
  apply pairwise_head_last_pair (splitPoints_pairwise_lt R input)
    (splitPoints_head R input) (splitPoints_getLast R input)
  · intro h
    have : (R : Int) = 0 := h.symm
    omega
  · intro x hx
    rw [mem_splitPoints] at hx
    obtain ⟨hsrc, hge, hle⟩ := hx
    rcases hsrc with h | h | h
    · exact Or.inl h
    · rcases hinv x h with h2 | h2
      · left; omega
      · right; omega
    · exact Or.inr h


lemma splitTables_nil {α : Type} (input : List Int) :
    splitTables ([] : List α) input = [] := by
  rw [splitTables_eq]
  have hpts : splitPoints (List.length ([] : List α)) input = [0] := by
    simp only [List.length_nil]
    exact splitPoints_zero input
  rw [hpts]
  simp [sliceTabs]

lemma splitTables_single {α : Type} (df : List α) (input : List Int) (hdf : df ≠ [])
    (hinv : ∀ p ∈ input, p ≤ 0 ∨ (df.length : Int) ≤ p) :
    splitTables df input = [df] := by
  have hR : 0 < df.length := List.length_pos.mpr hdf
  have hpts := splitPoints_all_invalid df.length input hR hinv
  rw [splitTables_eq, hpts]
  have hslice : sliceTabs df [0, (df.length : Int)] = [df] := by
    unfold sliceTabs
    have hlt : (0 : Int) < (df.length : Int) := by
      omega
    simp only [List.tail_cons, List.zip_cons_cons, List.zip_nil_right,
      List.filterMap_cons, List.filterMap_nil]
    rw [if_pos hlt]
    simp
  rw [hslice]
  simp [hdf]

/-
Schema serializer, src/app.py lines 13-71 (convert_tables_to_json).
-/

/-- A pandas DataFrame as used by this program: ordered column labels and
ordered rows of string cells (cells are strings after fillna). -/
structure Grid where
  cols : List Str
  rows : List (List Str)
deriving DecidableEq

/-- JSON column definition emitted per column (src/app.py lines 32-36). -/
structure ColDef where
  name : Str
  title : Str
  cellType : Str
deriving DecidableEq

/-- One matrixdropdown element (src/app.py lines 53-60). -/
structure SurveyElement where
  type : Str
  name : Str
  title : Str
  defaultValue : List (Str × List (Str × Str))
  columns : List ColDef
  rows : List Str
deriving DecidableEq

/-- One page of the output document (src/app.py lines 65-69). -/
structure SurveyPage where
  name : Str
  elements : List SurveyElement
deriving DecidableEq

/-- The output document (src/app.py lines 64-71). -/
structure SurveyDoc where
  pages : List SurveyPage
deriving DecidableEq

/-- Python dict update d[k] = v on an association list: an existing key
keeps its position and gets the new value, a new key is appended. -/
def dictInsert {α : Type} (d : List (Str × α)) (k : Str) (v : α) : List (Str × α) :=
  match d with
  | [] => [(k, v)]
  | (k2, v2) :: rest => if k2 = k then (k, v) :: rest else (k2, v2) :: dictInsert rest k v

/-- Python dict lookup d[k] (None when absent). -/
def dictLookup {α : Type} (d : List (Str × α)) (k : Str) : Option α :=
  (d.find? (fun p => decide (p.1 = k))).map Prod.snd

/-- Lookup in a dict of dicts: d[k1][k2]. -/
def dictLookup2 (d : List (Str × List (Str × Str))) (k1 k2 : Str) : Option Str :=
  (dictLookup d k1).bind (fun d2 => dictLookup d2 k2)

/-- Number of keys of a dict; dictInsert keeps keys distinct so this is
the length of the association list. -/
def dictSize {α : Type} (d : List (Str × α)) : Nat := d.length

/-- JSON name for the column with label c at 0-based position i
(src/app.py lines 28-30): str(c).strip(), or "Unnamed_Column_<i+1>" when
that is empty. -/
def colName (i : Nat) (c : Str) : Str :=
  if strip c = [] then "Unnamed_Column_".data ++ natDigits (i + 1) else strip c

/-- JSON title for the column with label c at position i (src/app.py
line 34): the original label when its strip is nonempty, else the
generated name. -/
def colTitle (i : Nat) (c : Str) : Str :=
  if strip c = [] then colName i c else c

/-- Row identifier "Row <i+1>" for 0-based row index i (src/app.py
line 42). -/
def rowName (i : Nat) : Str := "Row ".data ++ natDigits (i + 1)

/-- The per-row defaultValue dict (src/app.py lines 44-49): for each
column position j the value of cell j under the JSON column name.  Cell
access is positional; it agrees with the label lookup
table_df.iloc[i_row][col_header] whenever the column labels are distinct,
which holds for every grid built by the extraction stage. -/
def rowValues (cols : List Str) (row : List Str) : List (Str × Str) :=
  cols.enum.foldl (fun d p => dictInsert d (colName p.1 p.2) (row.getD p.1 [])) []

/-- The names of the emitted column definitions of a grid, in order. -/
def emittedNames (g : Grid) : List Str :=
  g.cols.enum.map (fun p => colName p.1 p.2)

/-- The matrixdropdown element built for the grid at 0-based position idx
of the input list (src/app.py lines 24-60). -/
def serializeElement (idx : Nat) (g : Grid) : SurveyElement :=
  ⟨"matrixdropdown".data,
   "Table ".data ++ natDigits (idx + 1),
   "Details for Table ".data ++ natDigits (idx + 1),
   (List.range g.rows.length).foldl
     (fun d i => dictInsert d (rowName i) (rowValues g.cols (g.rows.getD i []))) [],
   g.cols.enum.map (fun p => ⟨colName p.1 p.2, colTitle p.1 p.2, "text".data⟩),
   (List.range g.rows.length).map rowName⟩

/-- Model of convert_tables_to_json (src/app.py lines 13-71): one element
per DataFrame that is not empty (a pandas DataFrame is empty when it has
zero rows or zero columns), wrapped in a single page named page1. -/
def convertTablesToJson (ts : List Grid) : SurveyDoc :=
  ⟨[⟨"page1".data,
     ts.enum.filterMap (fun p =>
       if p.2.rows ≠ [] ∧ p.2.cols ≠ [] then some (serializeElement p.1 p.2) else none)⟩]⟩

lemma dictInsert_of_fresh {α : Type} : ∀ (d : List (Str × α)) (k : Str) (v : α),
    (∀ p ∈ d, p.1 ≠ k) → dictInsert d k v = d ++ [(k, v)] := by
  intro d
  induction d with
  | nil => intro k v _; rfl
  | cons p rest ih =>
    intro k v hfresh
    obtain ⟨k2, v2⟩ := p
    have hne : k2 ≠ k := hfresh (k2, v2) (List.mem_cons_self _ _)
    simp only [dictInsert, hne, if_false, List.cons_append]
    rw [ih k v (fun q hq => hfresh q (List.mem_cons_of_mem _ hq))]

lemma foldl_dictInsert_fresh {α β : Type} (key : β → Str) (val : β → α) :
    ∀ (l : List β) (d : List (Str × α)),
    (d.map Prod.fst ++ l.map key).Nodup →
    l.foldl (fun acc b => dictInsert acc (key b) (val b)) d =
      d ++ l.map (fun b => (key b, val b)) := by
  intro l
  induction l with
  | nil => intro d _; simp
  | cons b t ih =>
    intro d hnd
    have hfresh : ∀ p ∈ d, p.1 ≠ key b := by
      intro p hp hkey
      rw [List.nodup_append] at hnd
      exact hnd.2.2 (List.mem_map_of_mem Prod.fst hp) (by rw [hkey]; simp)
    have hstep : dictInsert d (key b) (val b) = d ++ [(key b, val b)] :=
      dictInsert_of_fresh d (key b) (val b) hfresh
    simp only [List.foldl_cons, hstep]
    rw [ih (d ++ [(key b, val b)]) (by
      have heq : (d ++ [(key b, val b)]).map Prod.fst ++ t.map key =
          d.map Prod.fst ++ (key b :: t.map key) := by simp
      rw [heq]
      exact hnd)]
    simp

lemma dictLookup_of_nodup {α : Type} : ∀ (d : List (Str × α)),
    (d.map Prod.fst).Nodup → ∀ (j : Nat) (hj : j < d.length),
    dictLookup d (d.get ⟨j, hj⟩).1 = some (d.get ⟨j, hj⟩).2 := by
  intro d
  induction d with
  | nil => intro _ j hj; simp at hj
  | cons p rest ih =>
    intro hnd j hj
    obtain ⟨k, v⟩ := p
    cases j with
    | zero => simp [dictLookup, List.find?_cons]
    | succ j =>
      have hj2 : j < rest.length := by simpa using hj
      have hget : ((k, v) :: rest).get ⟨j + 1, hj⟩ = rest.get ⟨j, hj2⟩ := rfl
      rw [hget]
      have hmc : ((k, v) :: rest).map Prod.fst = k :: rest.map Prod.fst := rfl
      rw [hmc, List.nodup_cons] at hnd
      have hkne : k ≠ (rest.get ⟨j, hj2⟩).1 := by
        intro heq
        apply hnd.1
        rw [heq]
        exact List.mem_map_of_mem Prod.fst (List.get_mem rest j hj2)
      have hnd2 : (rest.map Prod.fst).Nodup := hnd.2
      simp only [dictLookup, List.find?_cons]
      rw [decide_eq_false hkne]
      exact ih hnd2 j hj2

lemma rowName_injective : Function.Injective rowName := by
  intro a b hab
  unfold rowName at hab
  have h1 : natDigits (a + 1) = natDigits (b + 1) := List.append_cancel_left hab
  have := natDigits_injective h1
  omega

lemma serializeElement_defaultValue (idx : Nat) (g : Grid) :
    (serializeElement idx g).defaultValue =
      (List.range g.rows.length).map
        (fun i => (rowName i, rowValues g.cols (g.rows.getD i []))) := by
  have h := foldl_dictInsert_fresh rowName
      (fun i => rowValues g.cols (g.rows.getD i [])) (List.range g.rows.length) []
      (by
        simp only [List.map_nil, List.nil_append]
        exact List.Nodup.map rowName_injective (List.nodup_range _))
  exact h

lemma rowValues_of_nodup (cols : List Str) (row : List Str)
    (h : (cols.enum.map (fun p => colName p.1 p.2)).Nodup) :
    rowValues cols row = cols.enum.map (fun p => (colName p.1 p.2, row.getD p.1 [])) := by
  have h2 := foldl_dictInsert_fresh (fun p : Nat × Str => colName p.1 p.2)
      (fun p : Nat × Str => row.getD p.1 []) cols.enum []
      (by simpa using h)
  exact h2

lemma serializeElement_dv_lookup (idx : Nat) (g : Grid) (i : Nat) (hi : i < g.rows.length) :
    dictLookup (serializeElement idx g).defaultValue (rowName i) =
      some (rowValues g.cols (g.rows.getD i [])) := by
  rw [serializeElement_defaultValue]
  have hlen : i < ((List.range g.rows.length).map
      (fun i => (rowName i, rowValues g.cols (g.rows.getD i [])))).length := by
    simpa using hi
  have hnd : (((List.range g.rows.length).map
      (fun i => (rowName i, rowValues g.cols (g.rows.getD i [])))).map Prod.fst).Nodup := by
    rw [List.map_map]
    have : (Prod.fst ∘ fun i => (rowName i, rowValues g.cols (g.rows.getD i []))) = rowName := rfl
    rw [this]
    exact List.Nodup.map rowName_injective (List.nodup_range _)
  have hget : ((List.range g.rows.length).map
      (fun i => (rowName i, rowValues g.cols (g.rows.getD i [])))).get ⟨i, hlen⟩ =
      (rowName i, rowValues g.cols (g.rows.getD i [])) := by
    simp [List.get_eq_getElem]
  have h := dictLookup_of_nodup _ hnd i hlen
  rw [hget] at h
  exact h

lemma rowValues_lookup (cols : List Str) (row : List Str)
    (hnd : (cols.enum.map (fun p => colName p.1 p.2)).Nodup)
    (j : Nat) (hj : j < cols.length) :
    dictLookup (rowValues cols row) (colName j (cols.getD j [])) = some (row.getD j []) := by
  rw [rowValues_of_nodup cols row hnd]
  have hlen : j < (cols.enum.map (fun p => (colName p.1 p.2, row.getD p.1 []))).length := by
    simpa using hj
  have hnd2 : ((cols.enum.map (fun p => (colName p.1 p.2, row.getD p.1 []))).map Prod.fst).Nodup := by
    rw [List.map_map]
    exact hnd
  have hget : (cols.enum.map (fun p => (colName p.1 p.2, row.getD p.1 []))).get ⟨j, hlen⟩ =
      (colName j (cols.getD j []), row.getD j []) := by
    simp only [List.get_eq_getElem, List.getElem_map, List.getElem_enum]
    rw [List.getD_eq_getElem cols [] hj]
  have h := dictLookup_of_nodup _ hnd2 j hlen
  rw [hget] at h
  exact h

lemma emittedNames_getD (g : Grid) (j : Nat) (hj : j < g.cols.length) :
    (emittedNames g).getD j [] = colName j (g.cols.getD j []) := by
  unfold emittedNames
  have hlen : j < (g.cols.enum.map (fun p => colName p.1 p.2)).length := by simpa using hj
  rw [List.getD_eq_getElem _ [] hlen]
  simp only [List.getElem_map, List.getElem_enum]
  rw [List.getD_eq_getElem g.cols [] hj]

lemma convert_elements_length : ∀ (ts : List Grid) (n : Nat),
    ((List.enumFrom n ts).filterMap (fun p =>
        if p.2.rows ≠ [] ∧ p.2.cols ≠ [] then some (serializeElement p.1 p.2) else none)).length
      = ts.countP (fun g => decide (g.rows ≠ [] ∧ g.cols ≠ [])) := by
  intro ts
  induction ts with
  | nil => intro n; simp
  | cons g ts ih =>
    intro n
    rw [List.enumFrom_cons, List.filterMap_cons, List.countP_cons]
    by_cases hg : g.rows ≠ [] ∧ g.cols ≠ []
    · rw [if_pos hg]
      simp only [List.length_cons, ih (n + 1)]
      rw [decide_eq_true hg]
      simp
    · rw [if_neg hg]
      rw [ih (n + 1)]
      rw [decide_eq_false hg]
      simp

/-
Grid builder, src/app.py lines 144-153.  pandas pd.DataFrame(data_rows,
columns=columns_df) forms an object array whose width is the maximum row
length, padding shorter rows with None; it raises ValueError when that
width differs from len(columns_df).  df.fillna("") then turns every
missing or None cell into the empty string.  The ValueError is modeled as
Option.none.
-/

/-- Width of the object array pandas builds from a list of rows: the
maximum row length. -/
def maxWidth (rs : List (List (Option Str))) : Nat :=
  (rs.map List.length).foldr max 0

/-- Model of the DataFrame construction of src/app.py lines 146-153 for
given column names: the three branches for empty data or columns, the
fillna("") padding, and none for the pandas ValueError raised when the
data width differs from the column count. -/
def buildDf (cols : List Str) (dataRows : List (List (Option Str))) : Option Grid :=
  if dataRows = [] ∧ cols = [] then some ⟨[], []⟩
  else if dataRows = [] then some ⟨cols, []⟩
  else if maxWidth dataRows = cols.length then
    some ⟨cols, dataRows.map (fun r => (List.range cols.length).map
      (fun j => (r.getD j none).getD []))⟩
  else none

/-- Grid built from a raw table given as header row plus data rows
(src/app.py lines 125-153). -/
def gridBuild (header : List (Option Str)) (dataRows : List (List (Option Str))) :
    Option Grid :=
  buildDf (headerNames header) dataRows

/-
Range editor, src/app.py lines 172-181: trimmed_df =
df_to_operate.iloc[trim_range[0] : trim_range[1] + 1].  Python slice
semantics clamp both ends to the row count and yield an empty frame when
start exceeds end; no exception is ever raised and there is no
InvalidRangeError anywhere in the program.  Columns are untouched by iloc
row slicing.
-/

/-- Model of df.iloc[a : b + 1] on the list of rows. -/
def trimRange {α : Type} (rows : List α) (a b : Nat) : List α :=
  (rows.drop a).take (b + 1 - a)

/-- C1: for every table (list of rows) and every list of user-supplied
boundary inputs, the split tables concatenate back to exactly the input
rows, so the output is an ordered sequence of contiguous row ranges
covering row indices 0..R-1 exactly once with no gaps and no overlaps;
and the boundary list actually used (splitPoints) is strictly
increasing. -/
theorem C1_splitTables_partition {α : Type} (df : List α) (input : List Int) :
    (splitTables df input).flatten = df ∧
    (splitPoints df.length input).Pairwise (fun a b => a < b) :=
  ⟨splitTables_join df input, splitPoints_pairwise_lt df.length input⟩

/-- C6: the Table Splitter is a total function of its boundary input (it
never raises); an empty table yields zero partitions; with no user split
points (split count K = 1) a nonempty table yields exactly one partition
equal to the whole table; and when every user split point is invalid or
out of range the result is a single partition covering the whole table. -/
theorem C6_splitTables_degenerate {α : Type} (df : List α) (input : List Int) :
    splitTables ([] : List α) input = [] ∧
    (df ≠ [] → splitTables df ([] : List Int) = [df]) ∧
    (df ≠ [] → (∀ p ∈ input, p ≤ 0 ∨ (df.length : Int) ≤ p) →
      splitTables df input = [df]) :=
  ⟨splitTables_nil input,
   fun hdf => splitTables_single df [] hdf (by simp),
   fun hdf hinv => splitTables_single df input hdf hinv⟩

/-- Witness for C6 at a concrete input: a one-row table with both user
split points out of range yields the whole table as the only part. -/
theorem C6_splitTables_degenerate_witness :
    splitTables ([7] : List Nat) [-5, 99] = [[7]] :=
  (C6_splitTables_degenerate ([7] : List Nat) [-5, 99]).2.2 (by decide) (by decide)

/-- C4: the Header Normalizer yields one identifier per input position
(the output has the input's length, in position order), all identifiers
are pairwise distinct and nonempty, a colliding candidate receives the
smallest suffix _k with k at least 1 that is free against the running
used set, and the identifier at position i is the freshName of the
position-i candidate against the running set. -/
theorem C4_headerNames_unique (header : List (Option Str)) :
    (headerNames header).length = header.length ∧
    (headerNames header).Nodup ∧
    (∀ n ∈ headerNames header, n ≠ []) ∧
    (∀ (used : List Str) (c : Str), c ∈ used →
      ∃ k, 1 ≤ k ∧ freshName used c = cand c k ∧ cand c k ∉ used ∧
        ∀ j, 1 ≤ j → j < k → cand c j ∈ used) ∧
    (∀ i, i < header.length →
      ∃ u, (headerNames header).getD i [] =
        freshName u (normCandidate i (header.getD i none))) := by
  refine ⟨headerNames_length header, headerNames_nodup header, ?_, ?_, ?_⟩
  · intro n hn
    exact (headerNames_good header n hn).2
  · intro used c hc
    exact freshName_spec_mem used c hc
  · intro i hi
    unfold headerNames
    have hlen : i < (header.enum.map (fun p => normCandidate p.1 p.2)).length := by
      simpa using hi
    obtain ⟨u, hu⟩ := uniquifyGo_getD (header.enum.map (fun p => normCandidate p.1 p.2)) [] i hlen
    refine ⟨u, ?_⟩
    rw [hu]
    congr 1
    rw [List.getD_eq_getElem _ [] hlen]
    simp only [List.getElem_map, List.getElem_enum]
    rw [List.getD_eq_getElem header none hi]

/-- Witness for C4 at a concrete input: the identifier produced for a
one-column header is nonempty. -/
theorem C4_headerNames_unique_witness : "Total".data ≠ ([] : Str) :=
  (C4_headerNames_unique [some "Total".data]).2.2.1 "Total".data (by decide)

/-- Counterexample to C5 as stated: the code synthesizes the identifier
Extracted_Column_<i+1>, not Column_<i+1>, so on input
["", "Total", "Total", ""] the output differs from the claimed
[Column_1, Total, Total_1, Column_4]. -/
theorem C5_counterexample :
    headerNames [some "".data, some "Total".data, some "Total".data, some "".data] ≠
      ["Column_1".data, "Total".data, "Total_1".data, "Column_4".data] := by
  decide

/-- C5 amended: a header position whose raw value is null or empty after
stripping gets the synthesized candidate "Extracted_Column_" followed by
i+1 (1-indexed); in particular ["", "Total", "Total", ""] yields
[Extracted_Column_1, Total, Total_1, Extracted_Column_4]. -/
theorem C5_synthesized_names :
    (∀ (i : Nat) (h : Option Str), (h = none ∨ strip (h.getD []) = []) →
      normCandidate i h = "Extracted_Column_".data ++ natDigits (i + 1)) ∧
    headerNames [some "".data, some "Total".data, some "Total".data, some "".data] =
      ["Extracted_Column_1".data, "Total".data, "Total_1".data,
       "Extracted_Column_4".data] := by
  constructor
  · intro i h hh
    rcases hh with rfl | hs
    · rfl
    · cases h with
      | none => rfl
      | some s =>
        simp only [Option.getD_some] at hs
        simp [normCandidate, hs]
  · decide

/-- Witness for C5 (amended) at a concrete input: a null header value at
position 0 yields Extracted_Column_1. -/
theorem C5_synthesized_names_witness :
    normCandidate 0 none = "Extracted_Column_1".data := by
  rw [C5_synthesized_names.1 0 none (Or.inl rfl)]
  decide

/-- C9: every column name coming out of the extraction stage is nonempty
and equal to its own strip, so the serializer's empty-name fallback that
would synthesize Unnamed_Column_<i+1> is unreachable, and the emitted
column name at any position equals the grid's column header (which equals
that header stripped). -/
theorem C9_colName_stable (header : List (Option Str)) (c : Str)
    (hc : c ∈ headerNames header) (i : Nat) :
    colName i c = c ∧ strip c = c ∧ c ≠ [] := by
  obtain ⟨hg, hne⟩ := headerNames_good header c hc
  have hs : strip c = c := strip_eq_self_of_goodEdges hg
  refine ⟨?_, hs, hne⟩
  unfold colName
  rw [hs, if_neg hne]

/-- Witness for C9 at a concrete input: the emitted name for the extracted
header name Total equals Total itself. -/
theorem C9_colName_stable_witness : colName 0 "Total".data = "Total".data :=
  (C9_colName_stable [some "Total".data] "Total".data (by decide) 0).1

/-- Counterexample to C8 as stated: there is no InvalidRangeError anywhere
in the program; with start 2 greater than end 0 on a three-row table the
trim returns the empty grid instead of failing, and with end 5 out of
bounds on a one-row table the slice is silently clamped instead of
failing. -/
theorem C8_counterexample :
    trimRange ([["1".data], ["2".data], ["3".data]] : List (List Str)) 2 0 = [] ∧
    trimRange ([["1".data]] : List (List Str)) 0 5 = [["1".data]] := by
  constructor <;> rfl

/-- C8 amended: for 0 <= start <= end < rowCount the trim returns exactly
rows start..end inclusive (columns untouched by iloc row slicing); when
start > end it returns the empty grid, out-of-range indices are clamped,
and no exception is raised. -/
theorem C8_trimRange_spec {α : Type} (rows : List α) (a b : Nat) :
    (a ≤ b → b < rows.length →
      (trimRange rows a b).length = b - a + 1 ∧
      ∀ i, i ≤ b - a → (trimRange rows a b)[i]? = rows[a + i]?) ∧
    (b < a → trimRange rows a b = []) := by
  constructor
  · intro hab hb
    constructor
    · unfold trimRange
      rw [List.length_take, List.length_drop]
      omega
    · intro i hi
      unfold trimRange
      rw [List.getElem?_take, if_pos (by omega), List.getElem?_drop]
  · intro hba
    unfold trimRange
    have h0 : b + 1 - a = 0 := by omega
    rw [h0, List.take_zero]

/-- Witness for C8 (amended) at a concrete input: trimming rows 1..2 of a
three-row table keeps two rows. -/
theorem C8_trimRange_spec_witness :
    (trimRange ([10, 20, 30] : List Nat) 1 2).length = 2 := by
  have h := (C8_trimRange_spec ([10, 20, 30] : List Nat) 1 2).1 (by decide) (by decide)
  exact h.1

/-- Counterexample to C3 as stated: on the spec's own example, header
["A", null] with data rows [["1"], ["2","3","4"]], the DataFrame
construction raises ValueError (modeled none) because the widest data row
has 3 cells while there are 2 columns; the Grid Builder is not total and
excess cells are not dropped. -/
theorem C3_counterexample :
    gridBuild [some "A".data, none]
      [[some "1".data], [some "2".data, some "3".data, some "4".data]] = none := by
  decide

/-- C3 amended: the Grid Builder succeeds exactly when there are no data
rows or the maximum data-row width equals the column count; on success
the grid has the normalized header columns, one row per data row, every
row exactly column-count cells, and every cell is the string of the
corresponding raw cell with missing or null cells becoming the empty
string (so rows shorter than the width are padded); a table whose widest
data row differs from the column count - in particular one with excess
cells - fails with ValueError (none) instead of dropping cells. -/
theorem C3_gridBuild_spec (header : List (Option Str))
    (dataRows : List (List (Option Str))) :
    (gridBuild header dataRows = none ↔
      dataRows ≠ [] ∧ maxWidth dataRows ≠ (headerNames header).length) ∧
    (∀ g, gridBuild header dataRows = some g →
      g.cols = headerNames header ∧
      g.rows.length = dataRows.length ∧
      (∀ r ∈ g.rows, r.length = g.cols.length) ∧
      (∀ i j, i < dataRows.length → j < g.cols.length →
        (g.rows.getD i []).getD j [] =
          ((dataRows.getD i []).getD j none).getD [])) := by
  unfold gridBuild buildDf
  by_cases h1 : dataRows = [] ∧ headerNames header = []
  · rw [if_pos h1]
    constructor
    · simp [h1.1]
    · intro g hg
      have hgeq : g = ⟨[], []⟩ := (Option.some.inj hg).symm
      subst hgeq
      refine ⟨h1.2.symm, by simp [h1.1], by simp, ?_⟩
      intro i j hi _
      rw [h1.1] at hi
      simp at hi
  · rw [if_neg h1]
    by_cases h2 : dataRows = []
    · rw [if_pos h2]
      constructor
      · simp [h2]
      · intro g hg
        have hgeq : g = ⟨headerNames header, []⟩ := (Option.some.inj hg).symm
        subst hgeq
        refine ⟨rfl, by simp [h2], by simp, ?_⟩
        intro i j hi _
        rw [h2] at hi
        simp at hi
    · rw [if_neg h2]
      by_cases h3 : maxWidth dataRows = (headerNames header).length
      · rw [if_pos h3]
        constructor
        · simp [h2, h3]
        · intro g hg
          have hgeq : g = ⟨headerNames header, dataRows.map
              (fun r => (List.range (headerNames header).length).map
                (fun j => (r.getD j none).getD []))⟩ := (Option.some.inj hg).symm
          subst hgeq
          refine ⟨rfl, by simp, ?_, ?_⟩
          · intro r hr
            simp only [List.mem_map] at hr
            obtain ⟨r0, _, rfl⟩ := hr
            simp
          · intro i j hi hj
            have hi2 : i < (dataRows.map (fun r =>
                (List.range (headerNames header).length).map
                  (fun j => (r.getD j none).getD []))).length := by simpa using hi
            rw [List.getD_eq_getElem _ [] hi2]
            simp only [List.getElem_map]
            have hj2 : j < ((List.range (headerNames header).length).map
                (fun j => ((dataRows[i]).getD j none).getD [])).length := by
              simpa using hj
            rw [List.getD_eq_getElem _ [] hj2]
            simp only [List.getElem_map, List.getElem_range]
            rw [List.getD_eq_getElem dataRows [] hi]
      · rw [if_neg h3]
        constructor
        · simp [h2, h3]
        · intro g hg
          exact absurd hg (by simp)

/-- Witness for C3 (amended) at a concrete input: a one-column one-row
table builds a grid with one row. -/
theorem C3_gridBuild_spec_witness :
    (Grid.mk ["A".data] [["1".data]]).rows.length = 1 := by
  have h := (C3_gridBuild_spec [some "A".data] [[some "1".data]]).2
      ⟨["A".data], [["1".data]]⟩ (by decide)
  exact h.2.1

lemma convert_elements_length0 (ts : List Grid) :
    (ts.enum.filterMap (fun p =>
        if p.2.rows ≠ [] ∧ p.2.cols ≠ [] then some (serializeElement p.1 p.2)
        else none)).length
      = ts.countP (fun g => decide (g.rows ≠ [] ∧ g.cols ≠ [])) :=
  convert_elements_length ts 0

/-- C2 amended: every emitted element has rows.length equal to the grid's
row count and a defaultValue dict with exactly that many keys; and
provided the emitted column names are pairwise distinct (guaranteed for
pipeline grids, but violable by labels that strip to the same string, see
the counterexample), reading defaultValue[Row i+1][name of column j]
returns exactly the grid's cell (i, j): the round-trip identity. -/
theorem C2_serializeElement_roundtrip (idx : Nat) (g : Grid) :
    (serializeElement idx g).rows.length = g.rows.length ∧
    dictSize (serializeElement idx g).defaultValue = g.rows.length ∧
    ((emittedNames g).Nodup →
      ∀ i j, i < g.rows.length → j < g.cols.length →
        dictLookup2 (serializeElement idx g).defaultValue (rowName i)
            ((emittedNames g).getD j []) =
          some ((g.rows.getD i []).getD j [])) := by
  refine ⟨?_, ?_, ?_⟩
  · simp [serializeElement]
  · rw [dictSize, serializeElement_defaultValue]
    simp
  · intro hnd i j hi hj
    unfold dictLookup2
    rw [serializeElement_dv_lookup idx g i hi]
    rw [Option.some_bind]
    rw [emittedNames_getD g j hj]
    exact rowValues_lookup g.cols (g.rows.getD i []) hnd j hj

/-- Witness for C2 (amended) on the spec's own example: a grid with one
column Name and one row with value X round-trips. -/
theorem C2_serializeElement_roundtrip_witness :
    dictLookup2 (serializeElement 0 ⟨["Name".data], [["X".data]]⟩).defaultValue
        (rowName 0) ((emittedNames ⟨["Name".data], [["X".data]]⟩).getD 0 []) =
      some "X".data := by
  have h := (C2_serializeElement_roundtrip 0 ⟨["Name".data], [["X".data]]⟩).2.2
      (by decide) 0 0 (by decide) (by decide)
  exact h

/-- Counterexample to C2 as stated: the round-trip fails on a grid whose
two distinct labels "A" and "A " strip to the same emitted name "A":
reading back row 1 under "A" returns the later column's value "y", which
differs from the source cell (0, 0) value "x". -/
theorem C2_counterexample :
    dictLookup2 (serializeElement 0
        ⟨["A".data, "A ".data], [["x".data, "y".data]]⟩).defaultValue
      (rowName 0) "A".data = some "y".data ∧
    ((Grid.mk ["A".data, "A ".data] [["x".data, "y".data]]).rows.getD 0 []).getD 0 []
      = "x".data ∧
    emittedNames ⟨["A".data, "A ".data], [["x".data, "y".data]]⟩
      = ["A".data, "A".data] ∧
    ("y".data : Str) ≠ "x".data := by
  refine ⟨by decide, by decide, by decide, by decide⟩

/-- C7: the output document always has exactly one page, named page1; the
page's element count equals the number of input grids with at least one
row and at least one column (every empty grid is skipped silently and
contributes no element); and when every input grid is empty the document
still has the page with an empty elements list. -/
theorem C7_convert_structure (ts : List Grid) :
    (convertTablesToJson ts).pages.map SurveyPage.name = ["page1".data] ∧
    (convertTablesToJson ts).pages.map (fun p => p.elements.length) =
      [ts.countP (fun g => decide (g.rows ≠ [] ∧ g.cols ≠ []))] ∧
    ((∀ g ∈ ts, g.rows = [] ∨ g.cols = []) →
      (convertTablesToJson ts).pages = [⟨"page1".data, []⟩]) := by
  refine ⟨rfl, ?_, ?_⟩
  · show [(ts.enum.filterMap (fun p =>
        if p.2.rows ≠ [] ∧ p.2.cols ≠ [] then some (serializeElement p.1 p.2)
        else none)).length] = _
    rw [convert_elements_length0 ts]
  · intro hall
    have hcount : ts.countP (fun g => decide (g.rows ≠ [] ∧ g.cols ≠ [])) = 0 := by
      rw [List.countP_eq_zero]
      intro g hg
      have h := hall g hg
      simp only [decide_eq_true_eq]
      intro hcontra
      rcases h with h | h
      · exact hcontra.1 h
      · exact hcontra.2 h
    have hlen := convert_elements_length0 ts
    rw [hcount] at hlen
    have hE : ts.enum.filterMap (fun p =>
        if p.2.rows ≠ [] ∧ p.2.cols ≠ [] then some (serializeElement p.1 p.2)
        else none) = [] := List.length_eq_zero.mp hlen
    show [SurveyPage.mk "page1".data (ts.enum.filterMap (fun p =>
        if p.2.rows ≠ [] ∧ p.2.cols ≠ [] then some (serializeElement p.1 p.2)
        else none))] = [SurveyPage.mk "page1".data []]
    rw [hE]

/-- Witness for C7 at a concrete input: a single empty grid yields the
page1 page with no elements. -/
theorem C7_convert_structure_witness :
    (convertTablesToJson [⟨[], []⟩]).pages = [⟨"page1".data, []⟩] :=
  (C7_convert_structure [⟨[], []⟩]).2.2 (by decide)

/-- C10: the serializer does not deduplicate column names: for the grid
with distinct labels "A" and "A " (which strip to the same nonempty
string) and one row ["x", "y"], the element holds two column definitions
both named "A", the row's defaultValue dict holds a single entry for "A"
(the later column's value "y"), and so that dict has fewer keys (1) than
the element has columns (2). -/
theorem C10_duplicate_names :
    ((serializeElement 0
        ⟨["A".data, "A ".data], [["x".data, "y".data]]⟩).columns.map ColDef.name =
      ["A".data, "A".data]) ∧
    ((dictLookup (serializeElement 0
        ⟨["A".data, "A ".data], [["x".data, "y".data]]⟩).defaultValue
        (rowName 0)).map dictSize = some 1) ∧
    (serializeElement 0
        ⟨["A".data, "A ".data], [["x".data, "y".data]]⟩).columns.length = 2 ∧
    dictLookup2 (serializeElement 0
        ⟨["A".data, "A ".data], [["x".data, "y".data]]⟩).defaultValue
      (rowName 0) "A".data = some "y".data := by
  refine ⟨by decide, by decide, by decide, by decide⟩
